import Mathlib

/-!
Verification of the download-tg pipeline (src/app.py, src/repository.py,
src/config.py) against its natural-language specification.

Strings are modelled as lists of characters (`Str`).  The path functions
mirror Python's `posixpath` implementations (`os.path.splitext`,
`os.path.basename`, `os.path.join`, `os.path.normpath`, `os.path.abspath`)
used by the source.
-/

namespace DownloadTg

abbrev Str := List Char

/-- Index of the last occurrence of `c` in `l` (Python `str.rfind`,
`none` standing for `-1`). -/
def lastIdxOf (c : Char) : Str → Option Nat
  | [] => none
  | x :: xs =>
    match lastIdxOf c xs with
    | some i => some (i + 1)
    | none => if x = c then some 0 else none

/-- `posixpath.basename`: everything after the last slash. -/
def basename (p : Str) : Str :=
  match lastIdxOf '/' p with
  | some i => p.drop (i + 1)
  | none => p

/-- `os.path.splitext` (posix flavour): split off the extension at the last
dot that lies after the last slash, provided at least one non-dot character
stands between them (leading dots of the base name never start an
extension). -/
def splitext (p : Str) : Str × Str :=
  match lastIdxOf '.' p with
  | none => (p, [])
  | some d =>
    let fnStart : Nat :=
      match lastIdxOf '/' p with
      | none => 0
      | some i => i + 1
    if fnStart ≤ d ∧ ((p.drop fnStart).take (d - fnStart)).any (fun c => decide (c ≠ '.')) = true
    then (p.take d, p.drop d)
    else (p, [])

/-- `posixpath.join` for two arguments. -/
def joinPath (a b : Str) : Str :=
  if b.take 1 = ['/'] then b
  else if a = [] ∨ a.getLast? = some '/' then a ++ b
  else a ++ '/' :: b

/-- `str.split('/')`: split at every slash, keeping empty chunks. -/
def splitSep : Str → List Str
  | [] => [[]]
  | c :: cs =>
    let r := splitSep cs
    if c = '/' then [] :: r
    else (c :: r.headD []) :: r.tail

/-- `'/'.join(comps)`. -/
def joinSep : List Str → Str
  | [] => []
  | [x] => x
  | x :: xs => x ++ '/' :: joinSep xs

/-- One iteration of the component loop of `posixpath.normpath`. -/
def normStep (initialSlashes : Nat) (acc : List Str) (comp : Str) : List Str :=
  if comp = [] ∨ comp = ['.'] then acc
  else if comp ≠ ['.', '.'] ∨ (initialSlashes = 0 ∧ acc = []) ∨
          (acc ≠ [] ∧ acc.getLast? = some ['.', '.']) then acc ++ [comp]
  else acc.dropLast

/-- Number of leading slashes that `posixpath.normpath` keeps (0, 1 or 2). -/
def normSlashes (p : Str) : Nat :=
  if p.take 1 = ['/'] then
    (if p.take 2 = ['/', '/'] ∧ p.take 3 ≠ ['/', '/', '/'] then 2 else 1)
  else 0

/-- Reassembly step of `posixpath.normpath` (`sep*initial_slashes + sep.join(comps)`,
with the empty result replaced by `'.'`). -/
def normAssemble (k : Nat) (comps : List Str) : Str :=
  if List.replicate k '/' ++ joinSep comps = [] then ['.']
  else List.replicate k '/' ++ joinSep comps

/-- `posixpath.normpath`. -/
def normpath (p : Str) : Str :=
  if p = [] then ['.']
  else normAssemble (normSlashes p) ((splitSep p).foldl (normStep (normSlashes p)) [])

/-- `os.path.abspath` relative to a current working directory `cwd`
(`normpath(join(cwd, p))`; when `p` is already absolute `join` returns it
unchanged, as in CPython). -/
def abspath (cwd p : Str) : Str := normpath (joinPath cwd p)

/-! ### Basic lemmas about the path primitives -/

theorem lastIdxOf_eq_none {c : Char} {l : Str} (h : c ∉ l) : lastIdxOf c l = none := by
  induction l with
  | nil => rfl
  | cons x xs ih =>
    simp only [List.mem_cons, not_or] at h
    simp only [lastIdxOf, ih h.2]
    simp [Ne.symm h.1]

theorem lastIdxOf_append_cons {c : Char} {b : Str} (a : Str) (h : c ∉ b) :
    lastIdxOf c (a ++ c :: b) = some a.length := by
  induction a with
  | nil => simp [lastIdxOf, lastIdxOf_eq_none h]
  | cons x xs ih => simp [lastIdxOf, ih]

theorem basename_of_not_mem {p : Str} (h : '/' ∉ p) : basename p = p := by
  simp [basename, lastIdxOf_eq_none h]

theorem basename_append_cons {b : Str} (a : Str) (h : '/' ∉ b) :
    basename (a ++ '/' :: b) = b := by
  have hl := lastIdxOf_append_cons (c := '/') a h
  have h2 : a ++ '/' :: b = (a ++ ['/']) ++ b := by simp
  rw [basename, hl, h2]
  show List.drop (a.length + 1) (a ++ ['/'] ++ b) = b
  have h3 : a.length + 1 = (a ++ ['/']).length := by simp
  rw [h3, List.drop_left]

theorem splitSep_cons_sep (cs : Str) : splitSep ('/' :: cs) = [] :: splitSep cs := by
  simp [splitSep]

theorem splitSep_cons_of_ne {c : Char} (h : c ≠ '/') (cs : Str) :
    splitSep (c :: cs) = (c :: (splitSep cs).headD []) :: (splitSep cs).tail := by
  simp [splitSep, h]

theorem splitSep_ne_nil (l : Str) : splitSep l ≠ [] := by
  cases l with
  | nil => simp [splitSep]
  | cons c cs =>
    simp only [splitSep]
    split <;> simp

theorem splitSep_append_cons (a b : Str) :
    splitSep (a ++ '/' :: b) = splitSep a ++ splitSep b := by
  induction a with
  | nil => simp [splitSep_cons_sep, splitSep]
  | cons x xs ih =>
    by_cases hx : x = '/'
    · subst hx
      rw [List.cons_append, splitSep_cons_sep, splitSep_cons_sep, ih, List.cons_append]
    · obtain ⟨h1, t, ht⟩ : ∃ h1 t, splitSep xs = h1 :: t := by
        cases hs : splitSep xs with
        | nil => exact absurd hs (splitSep_ne_nil xs)
        | cons h1 t => exact ⟨h1, t, rfl⟩
      rw [List.cons_append, splitSep_cons_of_ne hx, splitSep_cons_of_ne hx, ih, ht]
      simp

theorem splitSep_of_not_mem {b : Str} (h : '/' ∉ b) : splitSep b = [b] := by
  induction b with
  | nil => rfl
  | cons x xs ih =>
    simp only [List.mem_cons, not_or] at h
    simp [splitSep, ih h.2, Ne.symm h.1, h.1]

theorem joinSep_append_single (A : List Str) (x : Str) :
    joinSep (A ++ [x]) = (if A = [] then x else joinSep A ++ '/' :: x) := by
  induction A with
  | nil => simp [joinSep]
  | cons a as ih =>
    cases as with
    | nil => simp [joinSep]
    | cons b bs =>
      simp only [List.cons_append]
      have e1 : joinSep (a :: b :: (bs ++ [x])) = a ++ '/' :: joinSep (b :: (bs ++ [x])) := rfl
      rw [e1]
      have e2 : (b :: (bs ++ [x])) = (b :: bs) ++ [x] := by simp
      rw [e2, ih]
      simp [joinSep]

theorem normStep_append (k : Nat) (A : List Str) {name : Str} (h1 : name ≠ [])
    (h2 : name ≠ ['.']) (h3 : name ≠ ['.', '.']) :
    normStep k A name = A ++ [name] := by
  unfold normStep
  rw [if_neg (by simp [h1, h2]), if_pos (Or.inl h3)]

/-- `posixpath.join` either returns its second argument or appends it after a
slash. -/
theorem joinPath_cases (a b : Str) :
    joinPath a b = b ∨ ∃ t, joinPath a b = t ++ '/' :: b := by
  unfold joinPath
  by_cases h1 : b.take 1 = ['/']
  · simp [h1]
  · rw [if_neg h1]
    by_cases h2 : a = [] ∨ a.getLast? = some '/'
    · rw [if_pos h2]
      rcases h2 with h2 | h2
      · subst h2; simp
      · right
        have hne : a ≠ [] := by rintro rfl; simp at h2
        have hg : a.getLast hne = '/' := by
          rw [List.getLast?_eq_getLast a hne] at h2
          exact Option.some_inj.mp h2
        refine ⟨a.dropLast, ?_⟩
        conv_lhs => rw [← List.dropLast_append_getLast hne, hg]
        simp
    · rw [if_neg h2]; exact Or.inr ⟨a, rfl⟩

theorem joinPath_joinPath_cases (cwd dir name : Str) :
    joinPath cwd (joinPath dir name) = name ∨
      ∃ s, joinPath cwd (joinPath dir name) = s ++ '/' :: name := by
  rcases joinPath_cases dir name with h | ⟨t, ht⟩
  · rw [h]; exact joinPath_cases cwd name
  · rw [ht]
    rcases joinPath_cases cwd (t ++ '/' :: name) with h2 | ⟨u, hu⟩
    · rw [h2]; exact Or.inr ⟨t, rfl⟩
    · rw [hu]; right; exact ⟨u ++ '/' :: t, by simp⟩

/-- The last component of a path survives `normpath` whenever it is not one of
the special components `""`, `"."`, `".."`. -/
theorem basename_normpath {q name : Str} (hn : '/' ∉ name) (hne : name ≠ [])
    (hdot : name ≠ ['.']) (hddot : name ≠ ['.', '.'])
    (hshape : q = name ∨ ∃ s, q = s ++ '/' :: name) :
    basename (normpath q) = name := by
  have hqne : q ≠ [] := by
    rcases hshape with rfl | ⟨s, rfl⟩
    · exact hne
    · simp
  obtain ⟨C, hC⟩ : ∃ C, splitSep q = C ++ [name] := by
    rcases hshape with rfl | ⟨s, rfl⟩
    · exact ⟨[], by rw [splitSep_of_not_mem hn]; rfl⟩
    · refine ⟨splitSep s, ?_⟩
      rw [splitSep_append_cons, splitSep_of_not_mem hn]
  rw [normpath, if_neg hqne, hC, List.foldl_append]
  generalize normSlashes q = k
  generalize List.foldl (normStep k) [] C = A
  have hstep : List.foldl (normStep k) A [name] = A ++ [name] := by
    simp only [List.foldl_cons, List.foldl_nil]
    exact normStep_append k A hne hdot hddot
  rw [hstep, normAssemble, joinSep_append_single]
  by_cases hA : A = []
  · simp only [if_pos hA]
    cases k with
    | zero =>
      simp only [List.replicate_zero, List.nil_append]
      rw [if_neg hne, basename_of_not_mem hn]
    | succ k2 =>
      rw [List.replicate_succ']
      have e : (List.replicate k2 '/' ++ ['/']) ++ name = List.replicate k2 '/' ++ '/' :: name := by
        simp
      rw [if_neg (by simp [hne]), e, basename_append_cons _ hn]
  · simp only [if_neg hA]
    have e : List.replicate k '/' ++ (joinSep A ++ '/' :: name) =
        (List.replicate k '/' ++ joinSep A) ++ '/' :: name := by simp
    rw [if_neg (by simp), e, basename_append_cons _ hn]

theorem splitext_append_ext {fid ext : Str} (hf : '/' ∉ fid ++ '.' :: ext)
    (he : '.' ∉ ext) (hnd : ∃ c ∈ fid, c ≠ '.') :
    splitext (fid ++ '.' :: ext) = (fid, '.' :: ext) := by
  have hdot : lastIdxOf '.' (fid ++ '.' :: ext) = some fid.length :=
    lastIdxOf_append_cons fid he
  have hsep : lastIdxOf '/' (fid ++ '.' :: ext) = none := lastIdxOf_eq_none hf
  obtain ⟨c, hc, hcne⟩ := hnd
  have hany : ((fid ++ '.' :: ext).take fid.length).any (fun c => decide (c ≠ '.')) = true := by
    rw [List.take_left]
    exact List.any_eq_true.mpr ⟨c, hc, by simp [hcne]⟩
  simp only [splitext, hdot, hsep]
  rw [if_pos ⟨Nat.zero_le _, by simpa using hany⟩]
  rw [List.take_left, List.drop_left]

/-- Dedup-key reconstruction performed by
`SqliteVideoDownloadHistoryRepository._get_video_ids_sync`:
`os.path.splitext(os.path.basename(filename))[0]`. -/
def reconstructId (filename : Str) : Str := (splitext (basename filename)).1

/-- Core of claim C2: the identifier reconstructed from the absolute stored
path `abspath(join(directory, f"{file_id}.{extension}"))` is `file_id`. -/
theorem reconstructId_abspath (cwd dir fid ext : Str) (h1 : '/' ∉ fid)
    (h2 : '/' ∉ ext) (h3 : '.' ∉ ext) (h4 : ∃ c ∈ fid, c ≠ '.') :
    reconstructId (abspath cwd (joinPath dir (fid ++ '.' :: ext))) = fid := by
  set name := fid ++ '.' :: ext with hname
  have hn : '/' ∉ name := by
    rw [hname]
    intro hmem
    rcases List.mem_append.mp hmem with hmem | hmem
    · exact h1 hmem
    · rcases List.mem_cons.mp hmem with hmem | hmem
      · exact absurd hmem (by decide)
      · exact h2 hmem
  have hne : name ≠ [] := by simp [hname]
  have hdot : name ≠ ['.'] := by
    obtain ⟨c, hc, hcne⟩ := h4
    intro hcontra
    rw [hname] at hcontra
    cases fid with
    | nil => simp at hc
    | cons a as => simp at hcontra
  have hddot : name ≠ ['.', '.'] := by
    obtain ⟨c, hc, hcne⟩ := h4
    intro hcontra
    rw [hname] at hcontra
    cases fid with
    | nil => simp at hc
    | cons a as =>
      cases as with
      | nil =>
        have h5 : a = '.' := by
          have := congrArg (fun l => l.headD ' ') hcontra
          simpa using this
        have h6 : c = a := by simpa using hc
        exact hcne (h6.trans h5)
      | cons b bs =>
        have hlen := congrArg List.length hcontra
        simp at hlen
  rw [reconstructId, abspath,
    basename_normpath hn hne hdot hddot (joinPath_joinPath_cases cwd dir name),
    hname, splitext_append_ext (hname ▸ hn) h3 h4]

/-! ### Keyword filter (`DownloadFilesApp._message_contains_all_keywords`) -/

/-- Python `str.lower`, character by character (ASCII case mapping). -/
def lowerStr (s : Str) : Str := s.map Char.toLower

/-- Python `str.split()` with no argument: split at runs of whitespace,
discarding empty chunks (accumulator holds the current token reversed). -/
def splitWsAux : Str → Str → List Str
  | [], acc => if acc = [] then [] else [acc.reverse]
  | c :: cs, acc =>
    if c.isWhitespace then
      (if acc = [] then splitWsAux cs [] else acc.reverse :: splitWsAux cs [])
    else splitWsAux cs (c :: acc)

def splitWs (s : Str) : List Str := splitWsAux s []

/-- `DownloadFilesApp._message_contains_all_keywords`: an empty (or absent)
keyword list accepts everything; an empty text with required keywords is
rejected; otherwise every lowered keyword must be one of the
whitespace-separated tokens of the lowered text. -/
def messageContainsAllKeywords (keyWords : List Str) (text : Str) : Bool :=
  if keyWords = [] then true
  else if text = [] then false
  else keyWords.all (fun k => decide (lowerStr k ∈ splitWs (lowerStr text)))

theorem splitWsAux_no_ws :
    ∀ (s acc : Str), (∀ c ∈ acc, c.isWhitespace = false) →
      ∀ t ∈ splitWsAux s acc, ∀ c ∈ t, c.isWhitespace = false := by
  intro s
  induction s with
  | nil =>
    intro acc hacc t ht c hc
    by_cases h : acc = []
    · simp [splitWsAux, h] at ht
    · simp only [splitWsAux, if_neg h, List.mem_singleton] at ht
      subst ht
      exact hacc c (by simpa using hc)
  | cons x xs ih =>
    intro acc hacc t ht c hc
    by_cases hx : x.isWhitespace = true
    · by_cases h : acc = []
      · simp only [splitWsAux, if_pos hx, if_pos h] at ht
        exact ih [] (by simp) t ht c hc
      · simp only [splitWsAux, if_pos hx, if_neg h, List.mem_cons] at ht
        rcases ht with rfl | ht
        · exact hacc c (by simpa using hc)
        · exact ih [] (by simp) t ht c hc
    · simp only [splitWsAux, if_neg hx] at ht
      refine ih (x :: acc) ?_ t ht c hc
      intro d hd
      rcases List.mem_cons.mp hd with rfl | hd
      · simpa using hx
      · exact hacc d hd

theorem splitWs_no_ws {s : Str} {t : Str} (ht : t ∈ splitWs s) :
    ∀ c ∈ t, c.isWhitespace = false :=
  splitWsAux_no_ws s [] (by simp) t ht

theorem toLower_whitespace {c : Char} (h : c.isWhitespace = true) : c.toLower = c := by
  have h2 : ((c = ' ' ∨ c = '\t') ∨ c = '\x0d') ∨ c = '\n' := by
    simpa [Char.isWhitespace] using h
  rcases h2 with ((rfl | rfl) | rfl) | rfl <;> decide

/-! ### Decimal rendering of Python ints (f-string interpolation) -/

def natStrAux : Nat → Nat → Str
  | 0, _ => []
  | fuel + 1, n => if n = 0 then [] else natStrAux fuel (n / 10) ++ [Nat.digitChar (n % 10)]

/-- Decimal representation of a natural number (`str(n)` for `n ≥ 0`). -/
def natStr (n : Nat) : Str := if n = 0 then ['0'] else natStrAux (n + 1) n

/-- Decimal representation of a Python `int`. -/
def intStr (n : Int) : Str := if n < 0 then '-' :: natStr (-n).toNat else natStr n.toNat

theorem natStrAux_eq_digits :
    ∀ fuel n : Nat, n < fuel →
      natStrAux fuel n = ((Nat.digits 10 n).map Nat.digitChar).reverse := by
  intro fuel
  induction fuel with
  | zero => intro n h; omega
  | succ f ih =>
    intro n h
    by_cases hn : n = 0
    · subst hn; simp [natStrAux]
    · have hdiv : n / 10 < f :=
        lt_of_lt_of_le (Nat.div_lt_self (Nat.pos_of_ne_zero hn) (by norm_num))
          (Nat.lt_succ_iff.mp h)
      simp only [natStrAux, if_neg hn]
      rw [ih _ hdiv, Nat.digits_def' (by norm_num : (1 : Nat) < 10) (Nat.pos_of_ne_zero hn)]
      simp

theorem natStr_eq (n : Nat) :
    natStr n = if n = 0 then ['0'] else ((Nat.digits 10 n).map Nat.digitChar).reverse := by
  unfold natStr
  by_cases hn : n = 0
  · simp [hn]
  · rw [if_neg hn, if_neg hn, natStrAux_eq_digits (n + 1) n (Nat.lt_succ_self n)]

theorem digitChar_ne {d : Nat} (hd : d < 10) :
    Nat.digitChar d ≠ '.' ∧ Nat.digitChar d ≠ '/' ∧
      Nat.digitChar d ≠ '-' ∧ Nat.digitChar d ≠ 'u' := by
  interval_cases d <;> refine ⟨by decide, by decide, by decide, by decide⟩

theorem digitChar_inj_lt {x y : Nat} (hx : x < 10) (hy : y < 10)
    (h : Nat.digitChar x = Nat.digitChar y) : x = y := by
  have key : ∀ a b : Fin 10, Nat.digitChar a.val = Nat.digitChar b.val → a.val = b.val := by
    decide
  exact key ⟨x, hx⟩ ⟨y, hy⟩ h

theorem mem_natStr {c : Char} {n : Nat} (hc : c ∈ natStr n) :
    ∃ d, d < 10 ∧ c = Nat.digitChar d := by
  rw [natStr_eq] at hc
  by_cases hn : n = 0
  · rw [if_pos hn] at hc
    simp only [List.mem_singleton] at hc
    exact ⟨0, by norm_num, by simpa using hc⟩
  · rw [if_neg hn] at hc
    simp only [List.mem_reverse, List.mem_map] at hc
    obtain ⟨d, hd, rfl⟩ := hc
    exact ⟨d, Nat.digits_lt_base (by norm_num) hd, rfl⟩

theorem map_digitChar_inj :
    ∀ l1 l2 : List Nat, (∀ d ∈ l1, d < 10) → (∀ d ∈ l2, d < 10) →
      l1.map Nat.digitChar = l2.map Nat.digitChar → l1 = l2 := by
  intro l1
  induction l1 with
  | nil => intro l2 _ _ h; cases l2 with
    | nil => rfl
    | cons y ys => simp at h
  | cons x xs ih =>
    intro l2 h1 h2 h
    cases l2 with
    | nil => simp at h
    | cons y ys =>
      simp only [List.map_cons, List.cons.injEq] at h
      have hx : x < 10 := h1 x (by simp)
      have hy : y < 10 := h2 y (by simp)
      rw [digitChar_inj_lt hx hy h.1,
        ih ys (fun d hd => h1 d (by simp [hd])) (fun d hd => h2 d (by simp [hd])) h.2]

theorem natStr_inj {a b : Nat} (h : natStr a = natStr b) : a = b := by
  have single_zero : ∀ m : Nat, m ≠ 0 →
      (['0'] : Str) ≠ ((Nat.digits 10 m).map Nat.digitChar).reverse := by
    intro m hm hcontra
    have h1 : (Nat.digits 10 m).map Nat.digitChar = ['0'] := by
      rw [← List.reverse_reverse ((Nat.digits 10 m).map Nat.digitChar), ← hcontra]
      rfl
    obtain ⟨d, hd, hd0⟩ : ∃ d, Nat.digits 10 m = [d] ∧ Nat.digitChar d = '0' := by
      cases hdig : Nat.digits 10 m with
      | nil => rw [hdig] at h1; simp at h1
      | cons d ds =>
        rw [hdig] at h1
        cases ds with
        | nil =>
          simp only [List.map_cons, List.map_nil, List.cons.injEq] at h1
          exact ⟨d, rfl, h1.1⟩
        | cons e es => simp at h1
    have hd10 : d < 10 := Nat.digits_lt_base (by norm_num) (by rw [hd]; simp)
    have hd0' : d = 0 := digitChar_inj_lt hd10 (by norm_num) (by rw [hd0]; rfl)
    have h2 := Nat.ofDigits_digits 10 m
    rw [hd, hd0'] at h2
    simp [Nat.ofDigits] at h2
    exact hm h2.symm
  rw [natStr_eq, natStr_eq] at h
  by_cases ha : a = 0 <;> by_cases hb : b = 0
  · rw [ha, hb]
  · rw [if_pos ha, if_neg hb] at h
    exact absurd h (single_zero b hb)
  · rw [if_neg ha, if_pos hb] at h
    exact absurd h.symm (single_zero a ha)
  · rw [if_neg ha, if_neg hb] at h
    have h2 := List.reverse_injective h
    have h3 := map_digitChar_inj _ _
      (fun d hd => Nat.digits_lt_base (by norm_num) hd)
      (fun d hd => Nat.digits_lt_base (by norm_num) hd) h2
    calc a = Nat.ofDigits 10 (Nat.digits 10 a) := (Nat.ofDigits_digits 10 a).symm
    _ = Nat.ofDigits 10 (Nat.digits 10 b) := by rw [h3]
    _ = b := Nat.ofDigits_digits 10 b

theorem mem_intStr {c : Char} {n : Int} (hc : c ∈ intStr n) :
    c = '-' ∨ ∃ d, d < 10 ∧ c = Nat.digitChar d := by
  unfold intStr at hc
  by_cases hn : n < 0
  · rw [if_pos hn] at hc
    rcases List.mem_cons.mp hc with h | h
    · exact Or.inl h
    · exact Or.inr (mem_natStr h)
  · rw [if_neg hn] at hc
    exact Or.inr (mem_natStr hc)

theorem dot_not_mem_intStr (n : Int) : '.' ∉ intStr n := by
  intro hmem
  rcases mem_intStr hmem with h | ⟨d, hd, hdc⟩
  · exact absurd h (by decide)
  · exact absurd hdc.symm (digitChar_ne hd).1

theorem slash_not_mem_intStr (n : Int) : '/' ∉ intStr n := by
  intro hmem
  rcases mem_intStr hmem with h | ⟨d, hd, hdc⟩
  · exact absurd h (by decide)
  · exact absurd hdc.symm (digitChar_ne hd).2.1

theorem intStr_inj {a b : Int} (h : intStr a = intStr b) : a = b := by
  have minus_not_mem : ∀ m : Nat, '-' ∉ natStr m := by
    intro m hmem
    obtain ⟨d, hd, hdc⟩ := mem_natStr hmem
    exact absurd hdc.symm (digitChar_ne hd).2.2.1
  unfold intStr at h
  by_cases ha : a < 0 <;> by_cases hb : b < 0
  · rw [if_pos ha, if_pos hb] at h
    have h2 : natStr (-a).toNat = natStr (-b).toNat := by
      simpa using h
    have h3 := natStr_inj h2
    omega
  · rw [if_pos ha, if_neg hb] at h
    exact absurd (by rw [← h]; simp : '-' ∈ natStr b.toNat) (minus_not_mem _)
  · rw [if_neg ha, if_pos hb] at h
    exact absurd (by rw [h]; simp : '-' ∈ natStr a.toNat) (minus_not_mem _)
  · rw [if_neg ha, if_neg hb] at h
    have h3 := natStr_inj h
    omega

theorem intStr_ne_unknown (n : Int) : intStr n ≠ "unknown".data := by
  intro h
  have hmem : 'u' ∈ intStr n := by rw [h]; decide
  rcases mem_intStr hmem with h2 | ⟨d, hd, hdc⟩
  · exact absurd h2 (by decide)
  · exact absurd hdc.symm (digitChar_ne hd).2.2.2

/-! ### Identifier derivation (`_make_video_id` / `_make_audio_id`) -/

/-- `getattr(media, 'id', 'unknown')` rendered into the f-string. -/
def attIdStr : Option Int → Str
  | some i => intStr i
  | none => "unknown".data

/-- `f"{channel_id}.{msg.id}.{getattr(media, 'id', 'unknown')}"`, shared body
of `DownloadFilesApp._make_video_id` and `_make_audio_id`. -/
def makeFileId (channelId msgId : Int) (attId : Option Int) : Str :=
  intStr channelId ++ ('.' :: (intStr msgId ++ ('.' :: attIdStr attId)))

theorem append_dot_inj {s s' r r' : Str} (hs : '.' ∉ s) (hs' : '.' ∉ s')
    (h : s ++ '.' :: r = s' ++ '.' :: r') : s = s' ∧ r = r' := by
  induction s generalizing s' with
  | nil =>
    cases s' with
    | nil => simpa using h
    | cons x xs =>
      simp only [List.nil_append, List.cons_append, List.cons.injEq] at h
      exact absurd (h.1 ▸ List.mem_cons_self x xs) hs'
  | cons a as ih =>
    cases s' with
    | nil =>
      simp only [List.nil_append, List.cons_append, List.cons.injEq] at h
      exact absurd (h.1.symm ▸ List.mem_cons_self a as) hs
    | cons b bs =>
      simp only [List.cons_append, List.cons.injEq] at h
      have has : '.' ∉ as := fun hm => hs (List.mem_cons_of_mem a hm)
      have hbs : '.' ∉ bs := fun hm => hs' (List.mem_cons_of_mem b hm)
      obtain ⟨h1, h2⟩ := ih has hbs h.2
      exact ⟨by rw [h.1, h1], h2⟩

theorem attIdStr_inj {x y : Option Int} (h : attIdStr x = attIdStr y) : x = y := by
  cases x with
  | none =>
    cases y with
    | none => rfl
    | some j => exact absurd h.symm (intStr_ne_unknown j)
  | some i =>
    cases y with
    | none => exact absurd h (intStr_ne_unknown i)
    | some j => rw [intStr_inj h]

theorem dot_not_mem_attIdStr (x : Option Int) : '.' ∉ attIdStr x := by
  cases x with
  | none => decide
  | some i => exact dot_not_mem_intStr i

theorem makeFileId_inj {c m a c' m' a' : _} (h : makeFileId c m a = makeFileId c' m' a') :
    c = c' ∧ m = m' ∧ a = a' := by
  unfold makeFileId at h
  have h1 := append_dot_inj (dot_not_mem_intStr c) (dot_not_mem_intStr c') h
  have h2 := append_dot_inj (dot_not_mem_intStr m) (dot_not_mem_intStr m') h1.2
  exact ⟨intStr_inj h1.1, intStr_inj h2.1, attIdStr_inj h2.2⟩

theorem intStr_ne_nil (n : Int) : intStr n ≠ [] := by
  unfold intStr
  by_cases hn : n < 0
  · simp [hn]
  · rw [if_neg hn]
    unfold natStr
    by_cases h0 : n.toNat = 0
    · simp [h0]
    · rw [if_neg h0, natStrAux_eq_digits _ _ (Nat.lt_succ_self _)]
      simp [Nat.digits_ne_nil_iff_ne_zero, h0]

theorem exists_non_dot_mem_makeFileId (c m : Int) (a : Option Int) :
    ∃ ch ∈ makeFileId c m a, ch ≠ '.' := by
  obtain ⟨x, hx⟩ : ∃ x, x ∈ intStr c := List.exists_mem_of_ne_nil _ (intStr_ne_nil c)
  refine ⟨x, List.mem_append_left _ hx, ?_⟩
  rcases mem_intStr hx with rfl | ⟨d, hd, rfl⟩
  · decide
  · exact (digitChar_ne hd).1

theorem slash_not_mem_makeFileId (c m : Int) (a : Option Int) :
    '/' ∉ makeFileId c m a := by
  unfold makeFileId
  intro hmem
  rcases List.mem_append.mp hmem with h | h
  · exact slash_not_mem_intStr c h
  · rcases List.mem_cons.mp h with h | h
    · exact absurd h (by decide)
    · rcases List.mem_append.mp h with h | h
      · exact slash_not_mem_intStr m h
      · rcases List.mem_cons.mp h with h | h
        · exact absurd h (by decide)
        · cases a with
          | none => revert h; decide
          | some i => exact slash_not_mem_intStr i h

/-! ### Extension extraction (`_extract_file_extension_or_get_default`) -/

/-- Body of `_extract_file_extension_or_get_default` after the leading-point
guard on the default: scan the attributes for the first one that carries a
`file_name` (the `Option` models `hasattr(attr, 'file_name')`); fall back to
the default when none is found, when the found name is falsy (empty), or when
it has no extension; otherwise return the extension, stripping a leading
dot. -/
def extractCore (attrs : List (Option Str)) (dflt : Str) : Str :=
  match attrs.findSome? id with
  | none => dflt
  | some fn =>
    if fn = [] then dflt
    else
      let e := (splitext fn).2
      if e = [] then dflt
      else if e.take 1 = ['.'] then e.tail
      else e

/-- `_extract_file_extension_or_get_default`, including the eager
`ValueError("extension with leading point")` raised when the default starts
with a dot — before the attachment is examined. -/
def extractFileExtensionOrGetDefault (attrs : List (Option Str)) (dflt : Str) :
    Except Str Str :=
  if dflt.take 1 = ['.'] then Except.error "extension with leading point".data
  else Except.ok (extractCore attrs dflt)

theorem not_mem_of_lastIdxOf_eq_none {c : Char} :
    ∀ {l : Str}, lastIdxOf c l = none → c ∉ l := by
  intro l
  induction l with
  | nil => intro _ h; simp at h
  | cons x xs ih =>
    intro h hmem
    simp only [lastIdxOf] at h
    cases hxs : lastIdxOf c xs with
    | some i => rw [hxs] at h; simp at h
    | none =>
      rw [hxs] at h
      rcases List.mem_cons.mp hmem with rfl | hmem
      · simp at h
      · exact ih hxs hmem

theorem lastIdxOf_spec {c : Char} :
    ∀ {l : Str} {i : Nat}, lastIdxOf c l = some i →
      ∃ rest, l.drop i = c :: rest ∧ c ∉ rest := by
  intro l
  induction l with
  | nil => intro i h; simp [lastIdxOf] at h
  | cons x xs ih =>
    intro i h
    simp only [lastIdxOf] at h
    cases hxs : lastIdxOf c xs with
    | some j =>
      rw [hxs] at h
      obtain rfl : j + 1 = i := by injection h
      obtain ⟨rest, hdrop, hrest⟩ := ih hxs
      exact ⟨rest, by simpa using hdrop, hrest⟩
    | none =>
      rw [hxs] at h
      by_cases hx : x = c
      · rw [if_pos hx] at h
        obtain rfl : (0 : Nat) = i := by injection h
        exact ⟨xs, by rw [List.drop_zero, hx], not_mem_of_lastIdxOf_eq_none hxs⟩
      · rw [if_neg hx] at h
        simp at h

/-- A nonempty extension returned by `splitext` starts with a dot and
contains no further dot and no slash. -/
theorem splitext_snd_cases (p : Str) :
    (splitext p).2 = [] ∨
      ∃ rest, (splitext p).2 = '.' :: rest ∧ '.' ∉ rest ∧ '/' ∉ rest := by
  cases hdot : lastIdxOf '.' p with
  | none => left; simp [splitext, hdot]
  | some d =>
    simp only [splitext, hdot]
    split
    next hcond =>
      right
      obtain ⟨rest, hdrop, hdotrest⟩ := lastIdxOf_spec hdot
      refine ⟨rest, by simpa using hdrop, hdotrest, ?_⟩
      intro hm
      have hmdrop : '/' ∈ p.drop d := by rw [hdrop]; exact List.mem_cons_of_mem _ hm
      cases hsep : lastIdxOf '/' p with
      | none => exact not_mem_of_lastIdxOf_eq_none hsep (List.drop_subset d p hmdrop)
      | some i =>
        rw [hsep] at hcond
        have hid : i + 1 ≤ d := hcond.1
        obtain ⟨rest2, hdrop2, hslash2⟩ := lastIdxOf_spec hsep
        have htail : p.drop (i + 1) = rest2 := by
          rw [← List.tail_drop, hdrop2]
          rfl
        have hdd : p.drop d = (p.drop (i + 1)).drop (d - (i + 1)) := by
          rw [List.drop_drop]
          congr 1
          omega
        rw [hdd, htail] at hmdrop
        exact hslash2 (List.drop_subset _ rest2 hmdrop)
    next hcond => left; rfl

theorem extractCore_no_sep (attrs : List (Option Str)) {dflt : Str}
    (h1 : '/' ∉ dflt) (h2 : '.' ∉ dflt) :
    '/' ∉ extractCore attrs dflt ∧ '.' ∉ extractCore attrs dflt := by
  unfold extractCore
  cases hfind : attrs.findSome? id with
  | none => exact ⟨h1, h2⟩
  | some fn =>
    by_cases hfn : fn = []
    · simp only [if_pos hfn]
      exact ⟨h1, h2⟩
    · simp only [if_neg hfn]
      rcases splitext_snd_cases fn with he | ⟨rest, he, hdot, hslash⟩
      · simp only [he, if_pos rfl]
        exact ⟨h1, h2⟩
      · simp only [he]
        rw [if_neg (by simp), if_pos (by rfl)]
        exact ⟨hslash, hdot⟩

/-! ### Message, configuration, and the scan loop (`download_and_save`) -/

structure MediaObj where
  id : Int
  attributes : List (Option Str)
deriving DecidableEq

structure Message where
  id : Int
  text : Str
  video : Option MediaObj
  audio : Option MediaObj
deriving DecidableEq

structure Cfg where
  channelId : Int
  keyWords : List Str
  downloadVideo : Bool
  downloadAudio : Bool
  videoDir : Str
  audioDir : Str
deriving DecidableEq

inductive MediaKind
  | video
  | audio
deriving DecidableEq

/-- One scheduled Fetch-Persist Worker: the arguments the scan loop passes
to `_download_and_process_file`. -/
structure Task where
  kind : MediaKind
  fileId : Str
  fileExt : Str
  directory : Str
  msgId : Int
deriving DecidableEq

/-- `DownloadFilesApp._make_video_id`. -/
def makeVideoId (cfg : Cfg) (m : Message) : Str :=
  makeFileId cfg.channelId m.id (m.video.map MediaObj.id)

/-- `DownloadFilesApp._make_audio_id`. -/
def makeAudioId (cfg : Cfg) (m : Message) : Str :=
  makeFileId cfg.channelId m.id (m.audio.map MediaObj.id)

/-- Audio half of the loop body of `download_and_save` (app.py lines
196-213); only reached when the video branch did not `continue`. -/
def scanAudio (cfg : Cfg) (existing : List Str) (m : Message) : List Task :=
  if cfg.downloadAudio then
    match m.audio with
    | none => []
    | some a =>
      if messageContainsAllKeywords cfg.keyWords m.text then
        if makeAudioId cfg m ∈ existing then []
        else [⟨MediaKind.audio, makeAudioId cfg m, extractCore a.attributes "mp3".data,
              cfg.audioDir, m.id⟩]
      else []
  else []

/-- One iteration of the `async for` scan loop of `download_and_save`
(app.py lines 176-213).  The `continue` statements of the video branch skip
the rest of the loop body, so when video downloading is enabled a failed
video check suppresses the audio branch as well. -/
def scanMessage (cfg : Cfg) (existing : List Str) (m : Message) : List Task :=
  if cfg.downloadVideo then
    match m.video with
    | none => []
    | some v =>
      if messageContainsAllKeywords cfg.keyWords m.text then
        if makeVideoId cfg m ∈ existing then []
        else ⟨MediaKind.video, makeVideoId cfg m, extractCore v.attributes "mp4".data,
              cfg.videoDir, m.id⟩ :: scanAudio cfg existing m
      else []
  else scanAudio cfg existing m

/-- All Fetch-Persist Workers scheduled during one scan of the stream. -/
def scheduledTasks (cfg : Cfg) (existing : List Str) (msgs : List Message) : List Task :=
  msgs.flatMap (scanMessage cfg existing)

/-! ### Fetch-Persist Worker (`_download_and_process_file`) -/

/-- Effect environment for one worker run: whether `download_media`
succeeds, whether a partial file exists at the destination after a failed
download, whether the repository write succeeds, and whether `os.remove`
succeeds during cleanup. -/
structure WorkerEnv where
  downloadOk : Bool
  partialFileOnFail : Bool
  writeOk : Bool
  removeOk : Bool
deriving DecidableEq

structure WorkerOutcome where
  result : Bool
  fileAtDest : Bool
  raised : Bool
deriving DecidableEq

/-- Cleanup path of the `except` block: `if os.path.exists(out_file):` try to
remove it, logging (but swallowing) an `OSError`; then return `False`. -/
def workerCleanup (env : WorkerEnv) (fileExists : Bool) : WorkerOutcome :=
  if fileExists then
    (if env.removeOk then ⟨false, false, false⟩ else ⟨false, true, false⟩)
  else ⟨false, false, false⟩

/-- `DownloadFilesApp._download_and_process_file` with its download and
write effects abstracted by `env`: on full success the artifact stays and
`True` is returned; on any failure the cleanup path runs and `False` is
returned; no exception ever escapes. -/
def downloadAndProcessFile (env : WorkerEnv) : WorkerOutcome :=
  if env.downloadOk then
    (if env.writeOk then ⟨true, true, false⟩
     else workerCleanup env true)
  else workerCleanup env env.partialFileOnFail

/-! ### Repository (`repository.py`) -/

structure DownloadedVideo where
  id : Str
  channelId : Int
  messageId : Str
  text : Str
  filename : Str
  created : Str
deriving DecidableEq

/-- `SqliteVideoDownloadHistoryRepository._get_video_ids_sync`: reconstruct
the dedup keys from the stored filenames of the rows of the requested
channel (`SELECT filename ... WHERE channel_id = ?` followed by
`splitext(basename(filename))[0]`). -/
def getVideoIdsSync (rows : List DownloadedVideo) (channelId : Int) : List Str :=
  (rows.filter (fun r => decide (r.channelId = channelId))).map
    (fun r => reconstructId r.filename)

/-- `_write_sync`: a plain `INSERT` into a table whose only uniqueness
constraint is `id TEXT PRIMARY KEY` (from `_connect_and_init_db`). -/
def writeSync (table : List DownloadedVideo) (v : DownloadedVideo) :
    Except Str (List DownloadedVideo) :=
  if table.any (fun r => decide (r.id = v.id)) then
    Except.error "UNIQUE constraint failed: downloaded_videos.id".data
  else Except.ok (table ++ [v])

/-- Observable effect of `close_conn`. -/
inductive RepoEffect
  | closeConn (filename : Str)
deriving DecidableEq

/-- `close_conn`: close and drop the connection when one is open, do nothing
otherwise (the `Str` stands for the connection handle). -/
def closeConn (conn : Option Str) : Option Str × List RepoEffect :=
  match conn with
  | none => (none, [])
  | some c => (none, [RepoEffect.closeConn c])

/-! ### Concurrency limiter (`asyncio.Semaphore` in `download_and_save`) -/

inductive WPhase
  | pending
  | running
  | done (ok : Bool)
deriving DecidableEq

def countPhase (x : WPhase) : List WPhase → Nat
  | [] => 0
  | y :: ys => (if y = x then 1 else 0) + countPhase x ys

structure SemState where
  avail : Nat
  phases : List WPhase
deriving DecidableEq

/-- Transitions of the worker pool gated by the semaphore: a pending worker
enters the critical section only when a slot is free (`async with semaphore`
suspends otherwise), and a worker leaving the critical section always frees
its slot, whether its outcome is success or failure. -/
inductive SemStep : SemState → SemState → Prop
  | acquire (a : Nat) (ph : List WPhase) (i : Nat)
      (h : ph.get? i = some WPhase.pending) :
      SemStep ⟨a + 1, ph⟩ ⟨a, ph.set i WPhase.running⟩
  | release (a : Nat) (ph : List WPhase) (i : Nat) (ok : Bool)
      (h : ph.get? i = some WPhase.running) :
      SemStep ⟨a, ph⟩ ⟨a + 1, ph.set i (WPhase.done ok)⟩

/-- Initial session state: `asyncio.Semaphore(n)` with `k` workers
scheduled by `asyncio.gather`. -/
def initSemState (n k : Nat) : SemState := ⟨n, List.replicate k WPhase.pending⟩

inductive SemReach (n k : Nat) : SemState → Prop
  | refl : SemReach n k (initSemState n k)
  | tail {s s' : SemState} : SemReach n k s → SemStep s s' → SemReach n k s'

theorem countPhase_set_of_ne {x y : WPhase} (hne : y ≠ x) :
    ∀ (l : List WPhase) (i : Nat), l.get? i = some y →
      countPhase x (l.set i x) = countPhase x l + 1 := by
  intro l
  induction l with
  | nil => intro i h; simp at h
  | cons a as ih =>
    intro i h
    cases i with
    | zero =>
      obtain rfl : a = y := by injection h
      simp [countPhase, hne]
      omega
    | succ j =>
      have h2 : as.get? j = some y := h
      simp only [List.set, countPhase, ih j h2]
      omega

theorem countPhase_set_to_ne {x z : WPhase} (hzx : z ≠ x) :
    ∀ (l : List WPhase) (i : Nat), l.get? i = some x →
      countPhase x (l.set i z) + 1 = countPhase x l := by
  intro l
  induction l with
  | nil => intro i h; simp at h
  | cons a as ih =>
    intro i h
    cases i with
    | zero =>
      obtain rfl : a = x := by injection h
      simp [countPhase, hzx]
      omega
    | succ j =>
      have h2 : as.get? j = some x := h
      simp only [List.set, countPhase]
      have := ih j h2
      omega

/-! ### Inversion and introduction lemmas for the scan loop -/

theorem scanAudio_inv {cfg : Cfg} {e : List Str} {m : Message} {t : Task}
    (ht : t ∈ scanAudio cfg e m) :
    ∃ a, cfg.downloadAudio = true ∧ m.audio = some a ∧
      messageContainsAllKeywords cfg.keyWords m.text = true ∧
      makeAudioId cfg m ∉ e ∧
      t = ⟨MediaKind.audio, makeAudioId cfg m, extractCore a.attributes "mp3".data,
        cfg.audioDir, m.id⟩ := by
  unfold scanAudio at ht
  split at ht
  next hda =>
    split at ht
    next haud => simp at ht
    next a haud =>
      split at ht
      next hkw =>
        split at ht
        next hmem => simp at ht
        next hmem =>
          simp only [List.mem_singleton] at ht
          exact ⟨a, hda, haud, hkw, hmem, ht⟩
      next hkw => simp at ht
  next hda => simp at ht

theorem scanAudio_intro {cfg : Cfg} {e : List Str} {m : Message} {a : MediaObj}
    (hda : cfg.downloadAudio = true) (haud : m.audio = some a)
    (hkw : messageContainsAllKeywords cfg.keyWords m.text = true)
    (hmem : makeAudioId cfg m ∉ e) :
    (⟨MediaKind.audio, makeAudioId cfg m, extractCore a.attributes "mp3".data,
      cfg.audioDir, m.id⟩ : Task) ∈ scanAudio cfg e m := by
  simp [scanAudio, hda, haud, hkw, hmem]

theorem scanMessage_inv {cfg : Cfg} {e : List Str} {m : Message} {t : Task}
    (ht : t ∈ scanMessage cfg e m) :
    (∃ v, cfg.downloadVideo = true ∧ m.video = some v ∧
      messageContainsAllKeywords cfg.keyWords m.text = true ∧
      makeVideoId cfg m ∉ e ∧
      t = ⟨MediaKind.video, makeVideoId cfg m, extractCore v.attributes "mp4".data,
        cfg.videoDir, m.id⟩) ∨
    (t ∈ scanAudio cfg e m ∧
      (cfg.downloadVideo = true → ∃ v, m.video = some v ∧
        messageContainsAllKeywords cfg.keyWords m.text = true ∧
        makeVideoId cfg m ∉ e)) := by
  unfold scanMessage at ht
  split at ht
  next hdv =>
    split at ht
    next hvid => simp at ht
    next v hvid =>
      split at ht
      next hkw =>
        split at ht
        next hmem => simp at ht
        next hmem =>
          rcases List.mem_cons.mp ht with rfl | ht2
          · exact Or.inl ⟨v, hdv, hvid, hkw, hmem, rfl⟩
          · exact Or.inr ⟨ht2, fun _ => ⟨v, hvid, hkw, hmem⟩⟩
      next hkw => simp at ht
  next hdv =>
    exact Or.inr ⟨ht, fun hv => absurd hv hdv⟩

theorem scanMessage_video_intro {cfg : Cfg} {e : List Str} {m : Message} {v : MediaObj}
    (hdv : cfg.downloadVideo = true) (hvid : m.video = some v)
    (hkw : messageContainsAllKeywords cfg.keyWords m.text = true)
    (hmem : makeVideoId cfg m ∉ e) :
    (⟨MediaKind.video, makeVideoId cfg m, extractCore v.attributes "mp4".data,
      cfg.videoDir, m.id⟩ : Task) ∈ scanMessage cfg e m := by
  simp [scanMessage, hdv, hvid, hkw, hmem]

theorem scanMessage_audio_intro {cfg : Cfg} {e : List Str} {m : Message} {t : Task}
    (ht : t ∈ scanAudio cfg e m)
    (hvid : cfg.downloadVideo = true → ∃ v, m.video = some v ∧
      messageContainsAllKeywords cfg.keyWords m.text = true ∧
      makeVideoId cfg m ∉ e) :
    t ∈ scanMessage cfg e m := by
  unfold scanMessage
  by_cases hdv : cfg.downloadVideo = true
  · obtain ⟨v, hv, hkw, hmem⟩ := hvid hdv
    rw [if_pos hdv, hv]
    simp only [if_pos hkw, if_neg hmem]
    exact List.mem_cons_of_mem _ ht
  · rw [if_neg hdv]
    exact ht

/-- A run against a superset of the recorded identifiers that covers every
previously scheduled identifier schedules nothing for the same message. -/
theorem scanMessage_empty (cfg : Cfg) (e1 e2 : List Str) (m : Message)
    (hsub : ∀ x ∈ e1, x ∈ e2)
    (hcov : ∀ t ∈ scanMessage cfg e1 m, t.fileId ∈ e2) :
    scanMessage cfg e2 m = [] := by
  by_contra hne
  obtain ⟨t, ht⟩ : ∃ t, t ∈ scanMessage cfg e2 m := by
    cases h : scanMessage cfg e2 m with
    | nil => exact absurd h hne
    | cons x xs => exact ⟨x, h ▸ List.mem_cons_self x xs⟩
  rcases scanMessage_inv ht with ⟨v, hdv, hvid, hkw, hmem, rfl⟩ |
    ⟨htA, himpl⟩
  · -- a video candidate survived run 2: its id was absent from e2, hence
    -- also absent from e1, hence scheduled in run 1, hence in e2
    have hne1 : makeVideoId cfg m ∉ e1 := fun hx => hmem (hsub _ hx)
    have h1 := hcov _ (scanMessage_video_intro hdv hvid hkw hne1)
    exact hmem h1
  · obtain ⟨a, hda, haud, hkw, hmem, rfl⟩ := scanAudio_inv htA
    have hne1 : makeAudioId cfg m ∉ e1 := fun hx => hmem (hsub _ hx)
    have hvid1 : cfg.downloadVideo = true → ∃ v, m.video = some v ∧
        messageContainsAllKeywords cfg.keyWords m.text = true ∧
        makeVideoId cfg m ∉ e1 := by
      intro hdv
      obtain ⟨v, hv, hkw2, hmemv⟩ := himpl hdv
      exact ⟨v, hv, hkw2, fun hx => hmemv (hsub _ hx)⟩
    have h1 := hcov _ (scanMessage_audio_intro (scanAudio_intro hda haud hkw hne1) hvid1)
    exact hmem h1

theorem scheduledTasks_empty (cfg : Cfg) (e1 e2 : List Str) (msgs : List Message)
    (hsub : ∀ x ∈ e1, x ∈ e2)
    (hcov : ∀ t ∈ scheduledTasks cfg e1 msgs, t.fileId ∈ e2) :
    scheduledTasks cfg e2 msgs = [] := by
  unfold scheduledTasks at hcov ⊢
  induction msgs with
  | nil => rfl
  | cons m ms ih =>
    rw [List.flatMap_cons] at hcov ⊢
    rw [scanMessage_empty cfg e1 e2 m hsub
      (fun t ht => hcov t (List.mem_append_left _ ht)), List.nil_append]
    exact ih (fun t ht => hcov t (List.mem_append_right _ ht))

/-- Invariant of the semaphore protocol: free slots plus workers inside the
critical section always equal the configured capacity. -/
theorem semInvariant {n k : Nat} {s : SemState} (h : SemReach n k s) :
    s.avail + countPhase WPhase.running s.phases = n := by
  induction h with
  | refl =>
    show n + countPhase WPhase.running (List.replicate k WPhase.pending) = n
    have hc : countPhase WPhase.running (List.replicate k WPhase.pending) = 0 := by
      induction k with
      | zero => rfl
      | succ j ihk => simpa [List.replicate_succ, countPhase] using ihk
    omega
  | tail hreach hstep ih =>
    cases hstep with
    | acquire a ph i hget =>
      have hc := countPhase_set_of_ne (x := WPhase.running) (y := WPhase.pending)
        (by simp) ph i hget
      simp only at ih ⊢
      omega
    | release a ph i ok hget =>
      have hc := countPhase_set_to_ne (x := WPhase.running) (z := WPhase.done ok)
        (by simp) ph i hget
      simp only at ih ⊢
      omega

theorem option_ne_none {α : Type} {o : Option α} (h : o ≠ none) : ∃ x, o = some x := by
  cases o with
  | none => exact absurd rfl h
  | some x => exact ⟨x, rfl⟩

/-! ## Claims -/

/-- C1, counterexample: with both download flags enabled, a message that
carries an audio attachment but no video attachment satisfies every audio
eligibility condition of the claim (audio enabled, audio present, keywords
match, identifier fresh), yet the scan schedules no worker at all, because
the video branch's `continue` skips the audio branch. -/
theorem c1_counterexample :
    (⟨1, [], true, true, "v".data, "a".data⟩ : Cfg).downloadAudio = true ∧
    (⟨5, [], none, some ⟨7, []⟩⟩ : Message).audio = some ⟨7, []⟩ ∧
    messageContainsAllKeywords (⟨1, [], true, true, "v".data, "a".data⟩ : Cfg).keyWords
      (⟨5, [], none, some ⟨7, []⟩⟩ : Message).text = true ∧
    makeAudioId ⟨1, [], true, true, "v".data, "a".data⟩ ⟨5, [], none, some ⟨7, []⟩⟩
      ∉ ([] : List Str) ∧
    scanMessage ⟨1, [], true, true, "v".data, "a".data⟩ [] ⟨5, [], none, some ⟨7, []⟩⟩ = [] := by
  exact ⟨rfl, rfl, rfl, by simp, rfl⟩

/-- C1 (amended): a video worker is scheduled iff video downloading is
enabled, the message carries a video, the keywords match and the video
identifier is fresh; an audio worker is scheduled iff audio downloading is
enabled, the message carries an audio, the keywords match, the audio
identifier is fresh, AND — when video downloading is also enabled — the
message additionally carries a video whose identifier is fresh (otherwise
the video branch's `continue` skips the audio branch). -/
theorem c1_scheduling_characterization (cfg : Cfg) (e : List Str) (m : Message) :
    ((∃ t ∈ scanMessage cfg e m, t.kind = MediaKind.video) ↔
      (cfg.downloadVideo = true ∧ m.video ≠ none ∧
        messageContainsAllKeywords cfg.keyWords m.text = true ∧
        makeVideoId cfg m ∉ e)) ∧
    ((∃ t ∈ scanMessage cfg e m, t.kind = MediaKind.audio) ↔
      (cfg.downloadAudio = true ∧ m.audio ≠ none ∧
        messageContainsAllKeywords cfg.keyWords m.text = true ∧
        makeAudioId cfg m ∉ e ∧
        (cfg.downloadVideo = true → m.video ≠ none ∧ makeVideoId cfg m ∉ e))) := by
  constructor
  · constructor
    · rintro ⟨t, ht, hkind⟩
      rcases scanMessage_inv ht with ⟨v, hdv, hvid, hkw, hmem, rfl⟩ | ⟨htA, _⟩
      · exact ⟨hdv, by simp [hvid], hkw, hmem⟩
      · obtain ⟨a, _, _, _, _, rfl⟩ := scanAudio_inv htA
        simp at hkind
    · rintro ⟨hdv, hvne, hkw, hmem⟩
      obtain ⟨v, hv⟩ := option_ne_none hvne
      exact ⟨_, scanMessage_video_intro hdv hv hkw hmem, rfl⟩
  · constructor
    · rintro ⟨t, ht, hkind⟩
      rcases scanMessage_inv ht with ⟨v, hdv, hvid, hkw, hmem, rfl⟩ | ⟨htA, himpl⟩
      · simp at hkind
      · obtain ⟨a, hda, haud, hkw, hmemA, rfl⟩ := scanAudio_inv htA
        refine ⟨hda, by simp [haud], hkw, hmemA, fun hdv => ?_⟩
        obtain ⟨v, hv, _, hmemV⟩ := himpl hdv
        exact ⟨by simp [hv], hmemV⟩
    · rintro ⟨hda, hane, hkw, hmem, himpl⟩
      obtain ⟨a, ha⟩ := option_ne_none hane
      refine ⟨_, scanMessage_audio_intro (scanAudio_intro hda ha hkw hmem) ?_, rfl⟩
      intro hdv
      obtain ⟨hvne, hmemV⟩ := himpl hdv
      obtain ⟨v, hv⟩ := option_ne_none hvne
      exact ⟨v, hv, hkw, hmemV⟩

/-- C2: (i) the identifier reconstructed from the stored absolute path
`abspath(join(directory, f"{file_id}.{extension}"))` — base name with its
last extension removed — is the original `file_id`; (ii) for every scheduled
candidate, the row its worker writes reconstructs, when loading existing
identifiers for the configured partition key, to exactly the candidate's
identifier; (iii) hence a rerun whose existing-identifier set covers every
identifier scheduled in the first run (as is the case when every first-run
worker returned true) schedules zero workers — and therefore writes zero
records. -/
theorem c2_idempotent_rerun :
    (∀ cwd dir fid ext : Str, '/' ∉ fid → '/' ∉ ext → '.' ∉ ext →
      (∃ c ∈ fid, c ≠ '.') →
      reconstructId (abspath cwd (joinPath dir (fid ++ '.' :: ext))) = fid) ∧
    (∀ (cfg : Cfg) (e : List Str) (m : Message) (t : Task), t ∈ scanMessage cfg e m →
      ∀ cwd uuid txt created : Str,
        getVideoIdsSync [⟨uuid, cfg.channelId, intStr t.msgId, txt,
          abspath cwd (joinPath t.directory (t.fileId ++ '.' :: t.fileExt)), created⟩]
          cfg.channelId = [t.fileId]) ∧
    (∀ (cfg : Cfg) (e1 e2 : List Str) (msgs : List Message),
      (∀ x ∈ e1, x ∈ e2) →
      (∀ t ∈ scheduledTasks cfg e1 msgs, t.fileId ∈ e2) →
      scheduledTasks cfg e2 msgs = []) := by
  refine ⟨reconstructId_abspath, ?_, scheduledTasks_empty⟩
  intro cfg e m t ht cwd uuid txt created
  have props : '/' ∉ t.fileId ∧ (∃ c ∈ t.fileId, c ≠ '.') ∧
      '/' ∉ t.fileExt ∧ '.' ∉ t.fileExt := by
    rcases scanMessage_inv ht with ⟨v, _, _, _, _, rfl⟩ | ⟨htA, _⟩
    · exact ⟨slash_not_mem_makeFileId _ _ _, exists_non_dot_mem_makeFileId _ _ _,
        (extractCore_no_sep _ (by decide) (by decide)).1,
        (extractCore_no_sep _ (by decide) (by decide)).2⟩
    · obtain ⟨a, _, _, _, _, rfl⟩ := scanAudio_inv htA
      exact ⟨slash_not_mem_makeFileId _ _ _, exists_non_dot_mem_makeFileId _ _ _,
        (extractCore_no_sep _ (by decide) (by decide)).1,
        (extractCore_no_sep _ (by decide) (by decide)).2⟩
  have hrec := reconstructId_abspath cwd t.directory t.fileId t.fileExt
    props.1 props.2.2.1 props.2.2.2 props.2.1
  simp [getVideoIdsSync, hrec]

/-- Witness for C2 at concrete inputs: partition 1, message 5, video 9,
default extension `mp4`. -/
theorem c2_witness :
    reconstructId (abspath "/w".data
      (joinPath "/v".data ("1.5.7".data ++ '.' :: "mp4".data))) = "1.5.7".data ∧
    getVideoIdsSync [⟨"u".data, (1 : Int), intStr 5, [],
      abspath "/w".data (joinPath "v".data ("1.5.7".data ++ '.' :: "mp4".data)), []⟩]
      1 = ["1.5.7".data] ∧
    scheduledTasks ⟨1, [], true, true, "v".data, "a".data⟩ ["1.5.7".data]
      [⟨5, [], some ⟨7, []⟩, none⟩] = [] :=
  ⟨c2_idempotent_rerun.1 "/w".data "/v".data "1.5.7".data "mp4".data
    (by decide) (by decide) (by decide) (by decide),
   c2_idempotent_rerun.2.1 ⟨1, [], true, true, "v".data, "a".data⟩ []
    ⟨5, [], some ⟨7, []⟩, none⟩ ⟨MediaKind.video, "1.5.7".data, "mp4".data, "v".data, 5⟩
    (by decide) "/w".data "u".data [] [],
   c2_idempotent_rerun.2.2 ⟨1, [], true, true, "v".data, "a".data⟩ [] ["1.5.7".data]
    [⟨5, [], some ⟨7, []⟩, none⟩] (by simp) (by decide)⟩

/-- C3, counterexample: the download succeeds, the repository write fails and
the cleanup `os.remove` raises `OSError` — the worker returns false, but the
artifact remains at the destination path, contradicting the unconditional
"no artifact remains" part of the claim. -/
theorem c3_counterexample :
    (downloadAndProcessFile ⟨true, false, false, false⟩).result = false ∧
    (downloadAndProcessFile ⟨true, false, false, false⟩).fileAtDest = true :=
  ⟨rfl, rfl⟩

/-- C3 (amended): on any download or persistence failure the worker returns
false and propagates no exception (a failed cleanup deletion is logged only
and changes neither of those); no artifact remains at the destination
provided the cleanup deletion itself succeeds. -/
theorem c3_rollback_amended (env : WorkerEnv)
    (hfail : ¬(env.downloadOk = true ∧ env.writeOk = true)) :
    (downloadAndProcessFile env).result = false ∧
    (downloadAndProcessFile env).raised = false ∧
    (env.removeOk = true → (downloadAndProcessFile env).fileAtDest = false) := by
  obtain ⟨d, p, w, r⟩ := env
  simp only [downloadAndProcessFile, workerCleanup] at *
  cases d <;> cases w <;> cases p <;> cases r <;> simp_all

/-- Witness for C3 at a concrete failing environment. -/
theorem c3_witness :
    (downloadAndProcessFile ⟨false, true, true, true⟩).result = false ∧
    (downloadAndProcessFile ⟨false, true, true, true⟩).raised = false ∧
    ((⟨false, true, true, true⟩ : WorkerEnv).removeOk = true →
      (downloadAndProcessFile ⟨false, true, true, true⟩).fileAtDest = false) :=
  c3_rollback_amended ⟨false, true, true, true⟩ (by simp)

/-- C4: in every reachable state of the semaphore-gated worker pool, the
number of workers inside the download-and-persist critical section never
exceeds the configured capacity `n`; free slots plus running workers always
equal `n` (a worker can enter only by consuming a slot — suspending when none
is free — and every exit, successful or failed, returns its slot). -/
theorem c4_bounded_concurrency (n k : Nat) (s : SemState) (h : SemReach n k s) :
    s.avail + countPhase WPhase.running s.phases = n ∧
    countPhase WPhase.running s.phases ≤ n := by
  have hinv := semInvariant h
  exact ⟨hinv, by omega⟩

/-- Witness for C4 at the initial state of a session with capacity 2 and 3
scheduled workers. -/
theorem c4_witness :
    (initSemState 2 3).avail + countPhase WPhase.running (initSemState 2 3).phases = 2 ∧
    countPhase WPhase.running (initSemState 2 3).phases ≤ 2 :=
  c4_bounded_concurrency 2 3 (initSemState 2 3) SemReach.refl

/-- C5: the keyword filter accepts everything when no keywords are required;
rejects empty text when keywords are required; and otherwise accepts exactly
when every lowered keyword is one of the whitespace-delimited tokens of the
lowered text; with the claim's three concrete cases. -/
theorem c5_keyword_filter :
    (∀ t : Str, messageContainsAllKeywords [] t = true) ∧
    (∀ (ks : List Str) (t : Str), ks ≠ [] → t = [] →
      messageContainsAllKeywords ks t = false) ∧
    (∀ (ks : List Str) (t : Str), ks ≠ [] → t ≠ [] →
      (messageContainsAllKeywords ks t = true ↔
        ∀ k ∈ ks, lowerStr k ∈ splitWs (lowerStr t))) ∧
    messageContainsAllKeywords ["a".data] [] = false ∧
    messageContainsAllKeywords [] "hello world".data = true ∧
    messageContainsAllKeywords ["world".data] "Hello World".data = true := by
  refine ⟨?_, ?_, ?_, by decide, by decide, by decide⟩
  · intro t
    simp [messageContainsAllKeywords]
  · intro ks t hks ht
    subst ht
    simp [messageContainsAllKeywords, hks]
  · intro ks t hks ht
    simp [messageContainsAllKeywords, hks, ht, List.all_eq_true]

/-- Witness for C5 at concrete inputs. -/
theorem c5_witness :
    messageContainsAllKeywords ["a".data] [] = false ∧
    (messageContainsAllKeywords ["a".data] "b".data = true ↔
      ∀ k ∈ [("a".data : Str)], lowerStr k ∈ splitWs (lowerStr "b".data)) :=
  ⟨c5_keyword_filter.2.1 ["a".data] [] (by decide) rfl,
   c5_keyword_filter.2.2.1 ["a".data] "b".data (by decide) (by decide)⟩

/-- C6: extension resolution raises the caller-contract error for every
attachment when the default starts with a dot; otherwise it falls back to
the default when no attribute declares a file name or the declared name has
no extension, and returns the declared extension with its leading dot
stripped (case preserved) otherwise; with the claim's concrete cases. -/
theorem c6_extension_resolution :
    (∀ (attrs : List (Option Str)) (dflt : Str), dflt.take 1 = ['.'] →
      extractFileExtensionOrGetDefault attrs dflt =
        Except.error "extension with leading point".data) ∧
    (∀ (attrs : List (Option Str)) (dflt : Str), dflt.take 1 ≠ ['.'] →
      (attrs.findSome? id = none →
        extractFileExtensionOrGetDefault attrs dflt = Except.ok dflt) ∧
      (∀ fn, attrs.findSome? id = some fn → (splitext fn).2 = [] →
        extractFileExtensionOrGetDefault attrs dflt = Except.ok dflt) ∧
      (∀ fn rest, attrs.findSome? id = some fn → (splitext fn).2 = '.' :: rest →
        extractFileExtensionOrGetDefault attrs dflt = Except.ok rest)) ∧
    extractFileExtensionOrGetDefault [] "mp4".data = Except.ok "mp4".data ∧
    extractFileExtensionOrGetDefault [some "clip.MOV".data] "mp4".data =
      Except.ok "MOV".data := by
  refine ⟨?_, ?_, by rfl, by rfl⟩
  · intro attrs dflt h
    simp [extractFileExtensionOrGetDefault, h]
  · intro attrs dflt h
    refine ⟨?_, ?_, ?_⟩
    · intro hfind
      simp [extractFileExtensionOrGetDefault, h, extractCore, hfind]
    · intro fn hfind hext
      by_cases hfn : fn = []
      · simp [extractFileExtensionOrGetDefault, h, extractCore, hfind, hfn]
      · simp [extractFileExtensionOrGetDefault, h, extractCore, hfind, hfn, hext]
    · intro fn rest hfind hext
      have hfn : fn ≠ [] := by
        intro hcontra
        rw [hcontra] at hext
        simp [splitext, lastIdxOf] at hext
      simp [extractFileExtensionOrGetDefault, h, extractCore, hfind, hfn, hext]

/-- Witness for C6 at concrete inputs. -/
theorem c6_witness :
    extractFileExtensionOrGetDefault [] ".mp4".data =
      Except.error "extension with leading point".data ∧
    extractFileExtensionOrGetDefault [] "mp4".data = Except.ok "mp4".data ∧
    extractFileExtensionOrGetDefault [some "clip".data] "mp4".data = Except.ok "mp4".data ∧
    extractFileExtensionOrGetDefault [some "clip.MOV".data] "mp4".data =
      Except.ok "MOV".data :=
  ⟨c6_extension_resolution.1 [] ".mp4".data (by decide),
   (c6_extension_resolution.2.1 [] "mp4".data (by decide)).1 rfl,
   (c6_extension_resolution.2.1 [some "clip".data] "mp4".data (by decide)).2.1
     "clip".data rfl (by decide),
   (c6_extension_resolution.2.1 [some "clip.MOV".data] "mp4".data (by decide)).2.2
     "clip.MOV".data "MOV".data rfl (by decide)⟩

/-- C7: identifier derivation is a total function returning exactly
`"{partitionKey}.{messageId}.{attachmentId-or-unknown}"` (so it is
deterministic), the literal token `unknown` is substituted when the
attachment carries no id, and the derivation is injective in its three
inputs (the only identifier collisions are between equal input triples, so
the documented `unknown` case never collides with a numeric id). -/
theorem c7_identifier_derivation :
    (∀ (ch mid : Int) (att : Option Int),
      makeFileId ch mid att =
        intStr ch ++ ('.' :: (intStr mid ++ ('.' :: attIdStr att)))) ∧
    attIdStr none = "unknown".data ∧
    (∀ (ch mid : Int) (att : Option Int) (ch' mid' : Int) (att' : Option Int),
      makeFileId ch mid att = makeFileId ch' mid' att' →
      ch = ch' ∧ mid = mid' ∧ att = att') :=
  ⟨fun _ _ _ => rfl, rfl, fun _ _ _ _ _ _ h => makeFileId_inj h⟩

/-- Witness for C7 at a concrete input triple. -/
theorem c7_witness :
    (1 : Int) = 1 ∧ (5 : Int) = 5 ∧ (some 7 : Option Int) = some 7 :=
  c7_identifier_derivation.2.2 1 5 (some 7) 1 5 (some 7) rfl

/-- C8: closing the repository with no open connection succeeds, performs no
effect and leaves the state unchanged; after any close the connection is
released, and a second close performs nothing — so close-twice equals
close-once. -/
theorem c8_close_idempotent :
    closeConn (none : Option Str) = (none, ([] : List RepoEffect)) ∧
    (∀ conn : Option Str, (closeConn conn).1 = none ∧
      closeConn (closeConn conn).1 = (none, ([] : List RepoEffect))) := by
  refine ⟨rfl, fun conn => ?_⟩
  cases conn <;> exact ⟨rfl, rfl⟩

/-- C9: the store's only uniqueness constraint is the generated primary-key
`id`: an insert succeeds for any row whose `id` is fresh, regardless of its
`filename` — in particular a row whose filename duplicates a stored row's is
accepted, so at-most-once persistence per identifier is not enforced by the
store. -/
theorem c9_store_uniqueness :
    (∀ (table : List DownloadedVideo) (v : DownloadedVideo),
      (∀ r ∈ table, r.id ≠ v.id) → writeSync table v = Except.ok (table ++ [v])) ∧
    (∀ r1 r2 : DownloadedVideo, r1.id ≠ r2.id → r1.filename = r2.filename →
      writeSync [r1] r2 = Except.ok [r1, r2]) := by
  constructor
  · intro table v h
    have hany : table.any (fun r => decide (r.id = v.id)) = false := by
      rw [List.any_eq_false]
      intro r hr
      simpa using h r hr
    simp [writeSync, hany]
  · intro r1 r2 hne _
    simp [writeSync, hne]

/-- Witness for C9: two rows with the same filename and distinct ids are both
stored. -/
theorem c9_witness :
    writeSync [] ⟨"id1".data, 1, "5".data, [], "/v/1.5.7.mp4".data, "t".data⟩ =
      Except.ok [⟨"id1".data, 1, "5".data, [], "/v/1.5.7.mp4".data, "t".data⟩] ∧
    writeSync [⟨"id1".data, 1, "5".data, [], "/v/1.5.7.mp4".data, "t".data⟩]
      ⟨"id2".data, 1, "5".data, [], "/v/1.5.7.mp4".data, "t".data⟩ =
      Except.ok [⟨"id1".data, 1, "5".data, [], "/v/1.5.7.mp4".data, "t".data⟩,
        ⟨"id2".data, 1, "5".data, [], "/v/1.5.7.mp4".data, "t".data⟩] :=
  ⟨c9_store_uniqueness.1 [] _ (by simp),
   c9_store_uniqueness.2 _ _ (by decide) rfl⟩

/-- C10: a required keyword matches only whitespace-delimited tokens: any
keyword containing a whitespace character makes the filter reject every
text, and a keyword adjacent to punctuation in the text does not match
(`"world"` against `"Hello World!"` fails). -/
theorem c10_whole_word_tokens :
    (∀ (ks : List Str) (t : Str),
      (∃ k ∈ ks, ∃ c ∈ k, c.isWhitespace = true) →
      messageContainsAllKeywords ks t = false) ∧
    messageContainsAllKeywords ["world".data] "Hello World!".data = false := by
  constructor
  · rintro ks t ⟨k, hk, c, hc, hcws⟩
    have hks : ks ≠ [] := by rintro rfl; simp at hk
    unfold messageContainsAllKeywords
    rw [if_neg hks]
    by_cases ht : t = []
    · rw [if_pos ht]
    · rw [if_neg ht]
      cases hall : ks.all (fun k => decide (lowerStr k ∈ splitWs (lowerStr t))) with
      | false => rfl
      | true =>
        exfalso
        have hmem : lowerStr k ∈ splitWs (lowerStr t) := by
          simpa using List.all_eq_true.mp hall k hk
        have hcl : c ∈ lowerStr k := by
          have hmap : c.toLower ∈ lowerStr k := List.mem_map_of_mem _ hc
          rwa [toLower_whitespace hcws] at hmap
        have hfalse := splitWs_no_ws hmem c hcl
        rw [hfalse] at hcws
        exact Bool.noConfusion hcws
  · decide

/-- Witness for C10: a keyword containing a space rejects every text. -/
theorem c10_witness :
    messageContainsAllKeywords ["a b".data] "x".data = false :=
  c10_whole_word_tokens.1 ["a b".data] "x".data
    ⟨"a b".data, by decide, ' ', by decide, by decide⟩

end DownloadTg
